import Mathlib

/-!
A shallow embedding of `calc_ipsae.py`: the ipSAE post-processing utility that
invokes an external scorer, parses its tabular output, ranks protein designs by
the resulting score, and writes a ranked FASTA-like file plus a summary table.

Python floats are modelled as exact rationals extended with the two
distinguished values `inf` (returned as the sentinel worst score) and `nan`
(produced by a pandas column-wise minimum over an empty selection).
-/

namespace CalcIpsae

/-! ## Definitions -/

/-- A Python float value as used by the script: a finite value (exact rational),
positive infinity (`float('inf')`, the sentinel worst score), or NaN. -/
inductive PFloat where
  | val (q : ℚ)
  | inf
  | nan
deriving DecidableEq, Repr

/-- A cell of the scorer's CSV output as parsed by pandas: either a string
(e.g. the `Type`, `Chn1`, `Chn2` columns) or a numeric value (metric columns). -/
inductive Cell where
  | str (s : String)
  | num (q : ℚ)
deriving DecidableEq, Repr

/-- The scorer's result table as parsed by `pd.read_csv`: a header row of column
names and a list of data rows (each row a list of cells, positionally aligned
with the columns). -/
structure Table where
  cols : List String
  rows : List (List Cell)
deriving Repr

/-- Pandas cell access `row[c]`: the cell of `row` in the column named `c` (pandas label-based
access; with distinct column labels this is the cell at the label's position). -/
def cellAt (cols : List String) (row : List Cell) (c : String) : Cell :=
  row.getD (cols.indexOf c) (.str "")

/-- The numeric content of a cell (metric columns hold numbers). -/
def cellQ : Cell → ℚ
  | .str _ => 0
  | .num q => q

/-- The string rendering of a cell as used in the f-string building the
chain-pair key (chain identifier columns hold strings). -/
def cellFmt : Cell → String
  | .str s => s
  | .num q => toString q.num

/-- The slice `df.columns[5:-1]`: the metric column names, i.e. all columns except the
first five and the last one. -/
def metricCols (cols : List String) : List String :=
  (cols.drop 5).dropLast

/-- Whether a row has `Type == "max"`. -/
def isMaxRow (cols : List String) (row : List Cell) : Bool :=
  cellAt cols row "Type" = Cell.str "max"

/-- The chain-pair key of a row: the f-string joining the Chn1 and Chn2 cells
with a dash. -/
def pairKey (cols : List String) (row : List Cell) : String :=
  cellFmt (cellAt cols row "Chn1") ++ "-" ++ cellFmt (cellAt cols row "Chn2")

/-- The mask `(df['Chn1'] == row['Chn1']) & (df['Chn2'] == row['Chn2']) & (df['Type'] != "max")`:
whether `x` is a non-max row with the same chain pair as `r`. -/
def matchesPair (cols : List String) (r x : List Cell) : Bool :=
  cellAt cols x "Chn1" = cellAt cols r "Chn1" ∧
  cellAt cols x "Chn2" = cellAt cols r "Chn2" ∧
  cellAt cols x "Type" ≠ Cell.str "max"

/-- The per-chain-pair record stored in `results`: the `max` row's metric cells
and the column-wise minimum over the matching non-max rows.  A `none` in
`minRec` is the NaN a pandas `min` produces over an empty selection. -/
structure Entry where
  maxRec : List Cell
  minRec : List (Option ℚ)
deriving DecidableEq, Repr

/-- The entry built for a `max`-typed row `r`:
the dict comprehension over the metric columns (the max record), together with
`df[mask][df.columns[5:-1]].min()` over the matching non-max rows of the
whole table. -/
def entryFor (cols : List String) (allRows : List (List Cell)) (r : List Cell) : Entry where
  maxRec := (metricCols cols).map (fun c => cellAt cols r c)
  minRec := (metricCols cols).map (fun c =>
    ((allRows.filter (fun x => matchesPair cols r x)).map
      (fun x => cellQ (cellAt cols x c))).min?)

/-- Python dict assignment `d[k] = v`: replace in place when the key exists
(keeping its position), append otherwise. -/
def dictInsert (d : List (String × Entry)) (k : String) (v : Entry) :
    List (String × Entry) :=
  if d.any (fun p => p.1 = k) then
    d.map (fun p => if p.1 = k then (k, v) else p)
  else d ++ [(k, v)]

/-- Python dict lookup `d[k]` / `k in d`. -/
def dictFind (d : List (String × Entry)) (k : String) : Option Entry :=
  (d.find? (fun p => p.1 = k)).map (fun p => p.2)

/-- The loop `for i, row in df[df.Type == "max"].iterrows(): ...` building the
`results` dict, processing the pending rows in order. -/
def buildGo (cols : List String) (allRows : List (List Cell)) :
    List (List Cell) → List (String × Entry) → List (String × Entry)
  | [], acc => acc
  | r :: rest, acc =>
      if isMaxRow cols r then
        buildGo cols allRows rest (dictInsert acc (pairKey cols r) (entryFor cols allRows r))
      else
        buildGo cols allRows rest acc

/-- The `results` dict derived from a parsed table, in insertion order. -/
def buildResults (t : Table) : List (String × Entry) :=
  buildGo t.cols t.rows t.rows []

/-- The access `results[pair]['min']['ipSAE']`: look the `ipSAE` column up in a `min`
record.  A missing `ipSAE` column raises a `KeyError`, which the surrounding
`except` turns into `float('inf')`; a NaN minimum (empty selection) is
returned as NaN. -/
def ipsaeOf (cols : List String) (e : Entry) : PFloat :=
  let i := (metricCols cols).indexOf "ipSAE"
  if i < e.minRec.length then
    match e.minRec.getD i none with
    | some q => .val q
    | none => .nan
  else .inf

/-- The priority list of chain-pair keys tried in order. -/
def priorityPairs : List String := ["A-B", "B-A", "A-C", "C-A"]

/-- Score selection from a parsed table: try the priority chain pairs in order
and return the first present pair's `min.ipSAE`; otherwise fall back to the
first-encountered pair; with no pairs at all, return `float('inf')`. -/
def selectScore (t : Table) : PFloat :=
  let rs := buildResults t
  match priorityPairs.findSome? (fun k => dictFind rs k) with
  | some e => ipsaeOf t.cols e
  | none =>
      match rs with
      | [] => .inf
      | (_, e) :: _ => ipsaeOf t.cols e

/-- The function `calculate_ipsae`, with the subprocess sweep abstracted to the list of exit
outcomes of the attempted interpreter-by-workdir combinations (`true` = exit
status zero) and the result-file read abstracted to `Option Table`
(`none` = the file was unreadable, i.e. `pd.read_csv` raised). -/
def calculate_ipsae (outcomes : List Bool) (parsed : Option Table) : PFloat :=
  if outcomes.any (fun o => o = true) then
    match parsed with
    | none => .inf
    | some t => selectScore t
  else .inf

/-- The scorer's output column layout: `Type`, `Chn1`, `Chn2`, two auxiliary
columns, then the metric columns, then a trailing column. -/
def sampleCols : List String :=
  ["Chn1", "Chn2", "PAE", "Dist", "Type", "ipSAE", "d0chn", "Model"]

def sampleRow (c1 c2 ty : String) (ip ex : ℚ) : List Cell :=
  [.str c1, .str c2, .num 15, .num 15, .str ty, .num ip, .num ex, .str "m"]

/-- A table containing both an `A-B` and a `C-A` chain pair. -/
def tableABCA : Table where
  cols := sampleCols
  rows := [sampleRow "A" "B" "asym" (mkRat 1 2) 1, sampleRow "A" "B" "max" (mkRat 7 10) 2,
           sampleRow "C" "A" "max" (mkRat 3 10) 3, sampleRow "C" "A" "asym" (mkRat 1 5) 0]

/-- A table whose only pairs are outside the priority list. -/
def tableXY : Table where
  cols := sampleCols
  rows := [sampleRow "X" "Y" "max" (mkRat 3 10) 3, sampleRow "X" "Y" "asym" (mkRat 1 5) 0,
           sampleRow "Q" "R" "max" (mkRat 9 10) 3, sampleRow "Q" "R" "asym" (mkRat 2 5) 0]

/-- A table with no `max`-typed row at all. -/
def tableNoMax : Table where
  cols := sampleCols
  rows := [sampleRow "A" "B" "asym" (mkRat 1 2) 1]

/-- A table whose only `max` row has no matching non-max rows. -/
def tableEmptyMin : Table where
  cols := sampleCols
  rows := [sampleRow "A" "B" "max" (mkRat 7 10) 2]

/-- A design record as assembled by `process_final_designs` before ranking. -/
structure Design where
  id : String
  originalName : String
  sequence : String
  designedSequence : String
  ipsae : PFloat
deriving DecidableEq, Repr

/-- A design record after the rank loop added its 1-based `ipsae_rank`. -/
structure RankedDesign extends Design where
  ipsaeRank : ℕ
deriving DecidableEq, Repr

/-- Python float `<` on scores (NaN incomparable, as in IEEE): the only
comparison CPython's `list.sort` ever evaluates. -/
def pfLt : PFloat → PFloat → Bool
  | .nan, _ => false
  | _, .nan => false
  | .val a, .val b => a < b
  | .val _, .inf => true
  | .inf, _ => false

/-- The key comparison `x['ipsae'] < y['ipsae']` the sort performs. -/
def designLt (a b : Design) : Bool :=
  pfLt a.ipsae b.ipsae

/-- Whether Timsort's `count_run` sees the whole list as one non-descending
natural run: no adjacent comparison reports `next < prev`. -/
def isSingleRun (lt : α → α → Bool) : List α → Bool
  | a :: b :: rest => !(lt b a) && isSingleRun lt (b :: rest)
  | _ => true

/-- CPython `list.sort`.  Timsort first detects an initial natural run: a list
whose adjacent key comparisons never report `next < prev` is one run — NaN
keys compare false both ways, so they extend such runs — and is returned
unchanged, at every length.  On keys admitting a consistent total preorder,
the output is the unique stable ascending sort, modelled by the stable
`mergeSort` on the not-strictly-greater comparison.  On remaining
inconsistent-key inputs CPython documents the result as undefined; the model
defaults to the merge path there. -/
def pySort (lt : α → α → Bool) (l : List α) : List α :=
  if isSingleRun lt l then l
  else l.mergeSort (fun a b => !(lt b a))

/-- The sort `designs.sort(key=lambda x: x['ipsae'])`. -/
def sortDesigns (ds : List Design) : List Design :=
  pySort designLt ds

/-- The rank loop: `design['ipsae_rank'] = i + 1` over the sorted designs. -/
def rankDesigns (ds : List Design) : List RankedDesign :=
  (sortDesigns ds).enum.map (fun p => ⟨p.2, p.1 + 1⟩)

/-- A proof device, not part of the program model: a total transitive
comparison placing NaN first, which agrees with the faithful
not-strictly-greater comparison whenever neither score is NaN.  It is used
only to transfer the `mergeSort` library lemmas, whose totality and
transitivity side conditions quantify over the whole type. -/
def pfLeTotal : PFloat → PFloat → Bool
  | .nan, _ => true
  | _, .nan => false
  | .val a, .val b => a ≤ b
  | .val _, .inf => true
  | .inf, .val _ => false
  | .inf, .inf => true

/-- Sample designs used by ranking witnesses (scores 5, 2, 2: a tie and a
strict comparison). -/
def sampleDesigns : List Design :=
  [⟨"rank00_d1.cif", "d1", "AAAA", "AAAA", .val 5⟩,
   ⟨"rank01_d2.cif", "d2", "CCCC", "CCCC", .val 2⟩,
   ⟨"rank02_d3.cif", "d3", "GGGG", "GGGG", .val 2⟩]

/-- Designs with scores 3, NaN, 1: every adjacent key comparison is false, so
Timsort sees a single natural run and returns the list unchanged. -/
def nanScoredDesigns : List Design :=
  [⟨"rank00_a.cif", "a", "AA", "AA", .val 3⟩,
   ⟨"rank01_b.cif", "b", "CC", "CC", .nan⟩,
   ⟨"rank02_c.cif", "c", "GG", "GG", .val 1⟩]

/-- The loop `for i in range(0, len(seq), 80)`: chop a sequence into 80-character
chunks.  The fuel argument (instantiated with the sequence length) makes the
recursion structural; each step consumes at least one character. -/
def wrapChunks : ℕ → List Char → List (List Char)
  | 0, _ => []
  | fuel + 1, s =>
      if s.isEmpty then []
      else s.take 80 :: wrapChunks fuel (s.drop 80)

/-- The 80-character line chunks written for a sequence. -/
def wrapSeq (s : List Char) : List (List Char) :=
  wrapChunks s.length s

/-- Round-half-to-even of `num / den` (the rounding Python's fixed-point float
formatting applies), on naturals. -/
def roundHalfEven (num den : ℕ) : ℕ :=
  let q := num / den
  let r := num % den
  if 2 * r < den then q
  else if den < 2 * r then q + 1
  else if q % 2 = 0 then q else q + 1

/-- Zero-pad a natural to four digits. -/
def padZeros4 (n : ℕ) : String :=
  let s := toString n
  String.mk (List.replicate (4 - s.length) '0') ++ s

/-- Fixed-point rendering of the nonnegative rational `num / den` with four
decimal places. -/
def fmt4Mag (num den : ℕ) : String :=
  let k := roundHalfEven (num * 10000) den
  toString (k / 10000) ++ "." ++ padZeros4 (k % 10000)

/-- Python fixed-point float formatting of a score at four decimal places
(the `.4f` format spec). -/
def fmt4 : PFloat → String
  | .val q => if q.num < 0 then "-" ++ fmt4Mag (-q.num).toNat q.den
              else fmt4Mag q.num.toNat q.den
  | .inf => "inf"
  | .nan => "nan"

/-- The header f-string: a leading `>`, the id, the score at four decimal
places, and the rank, with `|ipSAE=` and `|rank=` separators. -/
def fastaHeader (d : RankedDesign) : String :=
  ">" ++ d.id ++ "|ipSAE=" ++ fmt4 d.ipsae ++ "|rank=" ++ toString d.ipsaeRank

/-- The lines `write_fasta` emits for one design: the header, then the
sequence in 80-character lines. -/
def designLines (d : RankedDesign) : List String :=
  fastaHeader d :: (wrapSeq d.sequence.data).map (fun l => String.mk l)

/-- All lines `write_fasta` writes for a design list. -/
def write_fasta (ds : List RankedDesign) : List String :=
  (ds.map designLines).flatten

/-- A concrete 170-residue design used by the C6 witness. -/
def sampleLongDesign : RankedDesign :=
  ⟨⟨"rank00_d1", "d1", String.mk (List.replicate 170 'A'), "s",
    .val (mkRat 314159 100000)⟩, 2⟩

/-- Whether a character sequence starts with the pattern `.cif`. -/
def startsDotCif : List Char → Bool
  | '.' :: 'c' :: 'i' :: 'f' :: _ => true
  | _ => false

/-- Python `str.replace('.cif', rep)`: replace every (non-overlapping,
left-to-right) occurrence of `.cif`.  The fuel argument (instantiated with the
string length) makes the recursion structural. -/
def replCifGo (rep : List Char) : ℕ → List Char → List Char
  | 0, s => s
  | _ + 1, [] => []
  | fuel + 1, c :: rest =>
      if startsDotCif (c :: rest) then rep ++ replCifGo rep fuel ((c :: rest).drop 4)
      else c :: replCifGo rep fuel rest

/-- Python `s.replace('.cif', rep)`. -/
def pyReplaceCif (rep s : List Char) : List Char :=
  replCifGo rep s.length s

/-- Python `int()` on a float: truncation toward zero. -/
def pyTrunc (q : ℚ) : ℤ :=
  if 0 ≤ q.num then ((q.num.toNat / q.den : ℕ) : ℤ)
  else -(((-q.num).toNat / q.den : ℕ) : ℤ)

/-- The suffix f-string: underscore, truncated pae cutoff, underscore,
truncated dist cutoff, then `.txt`. -/
def cifSuffix (pae dist : ℚ) : String :=
  "_" ++ toString (pyTrunc pae) ++ "_" ++ toString (pyTrunc dist) ++ ".txt"

/-- The derivation in which `structure_file_path.replace` substitutes the
cutoff suffix for `.cif`:
the path the parser reads the scorer's results from. -/
def resultsPath (structPath : String) (pae dist : ℚ) : String :=
  String.mk (pyReplaceCif (cifSuffix pae dist).data structPath.data)

/-- The spec's wording of the derivation: the structure path with its final
`.cif` extension replaced by the suffix (only the extension, nothing else). -/
def specExtReplacedPath (structPath : String) (pae dist : ℚ) : String :=
  String.mk (structPath.data.take (structPath.data.length - 4)) ++ cifSuffix pae dist

/-- The parsed `--final_designs_dir` value.  The argument is declared with
`nargs='?'` and `default='test/final_ranked_designs'`: an absent flag yields
the default, a bare flag (no value) yields the const `None`, a flag with a
value yields that value.  `none` on the outside means the flag was absent,
`some none` a bare flag, `some (some d)` a flag with value `d`. -/
def argFinalDesignsDir : Option (Option String) → Option String
  | none => some "test/final_ranked_designs"
  | some v => v

/-- The fixed candidate list swept when the parsed directory is `None`. -/
def dirCandidates : List String :=
  ["output/final_ranked_designs", "test/final_ranked_designs", "final_ranked_designs"]

/-- The `--pae_cutoff` default (a float). -/
def defaultPaeCutoff : ℚ := 15

/-- The `--dist_cutoff` default (a float). -/
def defaultDistCutoff : ℚ := 15

/-- Directory resolution in `main` over the parsed value: a present value is
used as-is; `None` triggers the candidate sweep; exhausting the sweep exits
non-zero (modelled as `Except.error`). -/
def resolveDir (parsed : Option String) (pathExists : String → Bool) :
    Except Unit String :=
  match parsed with
  | some d => .ok d
  | none =>
      match dirCandidates.find? pathExists with
      | some c => .ok c
      | none => .error ()

/-- The claim's reading of the CLI: invoked without a results directory
argument, sweep the candidate list and use the first existing entry, exiting
non-zero when none exists. -/
def specResolveNoArg (pathExists : String → Bool) : Except Unit String :=
  match dirCandidates.find? pathExists with
  | some c => .ok c
  | none => .error ()

/-- Drop everything up to and including the first occurrence of `ch`;
`none` when `ch` does not occur. -/
def splitOffFirst (ch : Char) : List Char → Option (List Char)
  | [] => none
  | c :: rest => if c = ch then some rest else splitOffFirst ch rest

/-- The split `cif_name.split('_', 1)`: the original name is everything after the first
underscore (the rank-prefix token stripped), or the whole name when there is
no underscore. -/
def originalName (s : String) : String :=
  match splitOffFirst '_' s.data with
  | some r => String.mk r
  | none => s

/-- Python `Path(...).stem`: the file name with its last extension removed (a name
whose only dot leads is its own stem). -/
def pathStem (s : String) : String :=
  match splitOffFirst '.' s.data.reverse with
  | some r => if r = [] then s else String.mk r.reverse
  | none => s

/-- Python `original_name.replace('.cif', '')`. -/
def stripCifAll (s : String) : String :=
  String.mk (pyReplaceCif [] s.data)

/-- Python `str.startswith`, modelled on character lists. -/
def pyStartsWith (s pre : String) : Bool :=
  pre.data.isPrefixOf s.data

/-- Python `str.endswith`, modelled on character lists. -/
def pyEndsWith (s suf : String) : Bool :=
  suf.data.reverse.isPrefixOf s.data.reverse

/-- One row of the metrics CSV. -/
structure MetricsRow where
  fileName : String
  designedSequence : String
  designedChainSequence : String
deriving DecidableEq, Repr

/-- The lookup `filename_to_seq.get(name, "")`: the dict is built row by row, so a later
row with the same `file_name` wins. -/
def lookupSeq (rows : List MetricsRow) (name : String) : String :=
  match rows.reverse.find? (fun r => r.fileName = name) with
  | some r => r.designedSequence
  | none => ""

/-- The lookup `filename_to_chain_seq.get(name, "")`. -/
def lookupChainSeq (rows : List MetricsRow) (name : String) : String :=
  match rows.reverse.find? (fun r => r.fileName = name) with
  | some r => r.designedChainSequence
  | none => ""

/-- A discovered structure file and whether its companion `.npz` PAE file
exists in the `pae` directory. -/
structure CifEntry where
  name : String
  npzExists : Bool
deriving DecidableEq, Repr

/-- The filesystem facts `process_final_designs` consumes: the children of the
results directory, the metrics-file glob results, the parsed metrics rows,
the `pae` directory, the discovered `.cif` files (in sorted order), and the
per-structure score `calculate_ipsae` produces. -/
structure FS where
  subdirNames : List String
  finalMetricsFiles : List String
  allMetricsFiles : List String
  metricsRows : List MetricsRow
  paeDirExists : Bool
  cifFiles : List CifEntry
  score : String → PFloat

/-- The first child directory named `final_*_designs`. -/
def findFinalSubdir (fs : FS) : Option String :=
  fs.subdirNames.find? (fun n => pyStartsWith n "final_" && pyEndsWith n "_designs")

/-- The metrics CSV: the first `final_designs_metrics_*.csv` match, falling
back to `all_designs_metrics.csv`. -/
def metricsCsv (fs : FS) : Option String :=
  match fs.finalMetricsFiles with
  | [] => fs.allMetricsFiles.head?
  | f :: _ => some f

/-- The loop body for one structure file: skip when the PAE file is missing
or when neither sequence is found; otherwise build the design record with the
score of `calculate_ipsae`. -/
def processOne (fs : FS) (c : CifEntry) : Option Design :=
  if c.npzExists = false then none
  else
    let orig := originalName c.name
    let seq := lookupSeq fs.metricsRows orig
    let chain := lookupChainSeq fs.metricsRows orig
    if seq = "" ∧ chain = "" then none
    else some ⟨pathStem c.name, stripCifAll orig,
      if chain = "" then seq else chain, seq, fs.score c.name⟩

/-- The designs surviving the per-file loop, in discovery order. -/
def processDesigns (fs : FS) : List Design :=
  fs.cifFiles.filterMap (fun c => processOne fs c)

/-- The driver `process_final_designs`: resolve the designs subdirectory and metrics
table (exiting non-zero when absent, modelled as `Except.error`), require the
`pae` directory, process every structure file, exit non-zero when no design
survives, and otherwise rank the survivors. -/
def process_final_designs (fs : FS) : Except Unit (List RankedDesign) :=
  match findFinalSubdir fs with
  | none => .error ()
  | some _ =>
      match metricsCsv fs with
      | none => .error ()
      | some _ =>
          if fs.paeDirExists = false then .error ()
          else
            let ds := processDesigns fs
            if ds.isEmpty then .error ()
            else .ok (rankDesigns ds)

/-- A results tree with no `final_*_designs` child. -/
def fsNoSubdir : FS :=
  ⟨["designs", "pae"], [], [], [], false, [], fun _ => .inf⟩

/-- A results tree with directory and metrics present but no structure files. -/
def fsNoCifs : FS :=
  ⟨["final_2_designs"], ["final_designs_metrics_x.csv"], [], [], true, [], fun _ => .inf⟩

/-- A results tree with one processable structure file and one whose PAE file
is missing. -/
def fsSample : FS :=
  ⟨["final_5_designs"], ["final_designs_metrics_base.csv"], [],
   [⟨"d1.cif", "SEQ1", "CH1"⟩], true,
   [⟨"rank00_d1.cif", true⟩, ⟨"rank01_d2.cif", false⟩],
   fun _ => .val 2⟩

/-! ## Theorems -/

theorem dictFind_nil (k : String) : dictFind [] k = none := rfl

theorem dictFind_cons (p : String × Entry) (d : List (String × Entry)) (k : String) :
    dictFind (p :: d) k = if p.1 = k then some p.2 else dictFind d k := by
  by_cases h : p.1 = k <;> simp [dictFind, List.find?_cons, h]

theorem dictFind_append (d e : List (String × Entry)) (k : String) :
    dictFind (d ++ e) k =
      match dictFind d k with
      | some v => some v
      | none => dictFind e k := by
  induction d with
  | nil => simp [dictFind_nil]
  | cons p d ih =>
      by_cases h : p.1 = k
      · simp [dictFind_cons, h]
      · simpa [dictFind_cons, h] using ih

theorem dictFind_map_set_ne (d : List (String × Entry)) (k' k : String) (v : Entry)
    (h : k' ≠ k) :
    dictFind (d.map (fun p => if p.1 = k' then (k', v) else p)) k = dictFind d k := by
  induction d with
  | nil => simp [dictFind_nil]
  | cons p d ih =>
      simp only [List.map_cons]
      by_cases hp : p.1 = k'
      · rw [if_pos hp, dictFind_cons, dictFind_cons]
        have h2 : ¬ p.1 = k := by rw [hp]; exact h
        rw [if_neg h, if_neg h2]
        exact ih
      · rw [if_neg hp, dictFind_cons, dictFind_cons]
        by_cases hpk : p.1 = k
        · rw [if_pos hpk, if_pos hpk]
        · rw [if_neg hpk, if_neg hpk]
          exact ih

theorem dictFind_map_set_self (d : List (String × Entry)) (k : String) (v : Entry)
    (hany : d.any (fun p => p.1 = k) = true) :
    dictFind (d.map (fun p => if p.1 = k then (k, v) else p)) k = some v := by
  induction d with
  | nil => simp at hany
  | cons p d ih =>
      by_cases hp : p.1 = k
      · simp [dictFind_cons, hp]
      · simp only [List.any_cons, Bool.or_eq_true, decide_eq_true_eq] at hany
        rcases hany with h | h
        · exact absurd h hp
        · simpa [dictFind_cons, hp] using ih h

theorem dictFind_eq_none_of_not_any (d : List (String × Entry)) (k : String)
    (hany : ¬ d.any (fun p => p.1 = k) = true) : dictFind d k = none := by
  induction d with
  | nil => rfl
  | cons p d ih =>
      simp only [List.any_cons, Bool.or_eq_true, decide_eq_true_eq, not_or] at hany
      rw [dictFind_cons, if_neg hany.1]
      exact ih (by simpa using hany.2)

theorem dictInsert_find_self (d : List (String × Entry)) (k : String) (v : Entry) :
    dictFind (dictInsert d k v) k = some v := by
  unfold dictInsert
  split
  · exact dictFind_map_set_self d k v (by assumption)
  · rename_i hany
    rw [dictFind_append, dictFind_eq_none_of_not_any d k hany]
    simp [dictFind_cons]

theorem dictInsert_find_ne (d : List (String × Entry)) (k' k : String) (v : Entry)
    (h : k' ≠ k) : dictFind (dictInsert d k' v) k = dictFind d k := by
  unfold dictInsert
  split
  · exact dictFind_map_set_ne d k' k v h
  · rw [dictFind_append]
    cases hf : dictFind d k with
    | some w => rfl
    | none => simp [dictFind_cons, dictFind_nil, h]

theorem dictInsert_find_isSome (d : List (String × Entry)) (k' k : String) (v : Entry) :
    (dictFind (dictInsert d k' v) k).isSome = true ↔
      k = k' ∨ (dictFind d k).isSome = true := by
  by_cases hk : k = k'
  · subst hk; simp [dictInsert_find_self]
  · rw [dictInsert_find_ne d k' k v (Ne.symm hk)]
    simp [hk]

theorem buildGo_find (cols : List String) (allRows : List (List Cell))
    (pending : List (List Cell)) (acc : List (String × Entry)) (k : String) (v : Entry)
    (hall : ∀ s ∈ pending, isMaxRow cols s = true → pairKey cols s = k →
      entryFor cols allRows s = v)
    (hbase : dictFind acc k = some v ∨
      ∃ s ∈ pending, isMaxRow cols s = true ∧ pairKey cols s = k) :
    dictFind (buildGo cols allRows pending acc) k = some v := by
  induction pending generalizing acc with
  | nil =>
      rcases hbase with h | ⟨s, hs, _⟩
      · simpa [buildGo] using h
      · simp at hs
  | cons r rest ih =>
      by_cases hmax : isMaxRow cols r = true
      · by_cases hkey : pairKey cols r = k
        · have hv : entryFor cols allRows r = v := hall r (by simp) hmax hkey
          rw [buildGo, if_pos hmax]
          refine ih _ (fun s hs => hall s (by simp [hs])) (Or.inl ?_)
          rw [← hkey, dictInsert_find_self acc (pairKey cols r) (entryFor cols allRows r), hv]
        · rw [buildGo, if_pos hmax]
          refine ih _ (fun s hs => hall s (by simp [hs])) ?_
          rcases hbase with h | ⟨s, hs, hsm, hsk⟩
          · exact Or.inl (by rw [dictInsert_find_ne acc (pairKey cols r) k _ hkey]; exact h)
          · rcases List.mem_cons.mp hs with rfl | hs'
            · exact absurd hsk hkey
            · exact Or.inr ⟨s, hs', hsm, hsk⟩
      · rw [buildGo, if_neg hmax]
        refine ih _ (fun s hs => hall s (by simp [hs])) ?_
        rcases hbase with h | ⟨s, hs, hsm, hsk⟩
        · exact Or.inl h
        · rcases List.mem_cons.mp hs with rfl | hs'
          · exact absurd hsm hmax
          · exact Or.inr ⟨s, hs', hsm, hsk⟩

theorem buildGo_find_isSome (cols : List String) (allRows : List (List Cell))
    (pending : List (List Cell)) (acc : List (String × Entry)) (k : String) :
    (dictFind (buildGo cols allRows pending acc) k).isSome = true ↔
      (dictFind acc k).isSome = true ∨
        ∃ r ∈ pending, isMaxRow cols r = true ∧ pairKey cols r = k := by
  induction pending generalizing acc with
  | nil => simp [buildGo]
  | cons r rest ih =>
      by_cases hmax : isMaxRow cols r = true
      · rw [buildGo, if_pos hmax]
        rw [ih]
        rw [dictInsert_find_isSome]
        constructor
        · rintro ((h | h) | h)
          · exact Or.inr ⟨r, by simp, hmax, h.symm⟩
          · exact Or.inl h
          · rcases h with ⟨s, hs, hsm, hsk⟩
            exact Or.inr ⟨s, by simp [hs], hsm, hsk⟩
        · rintro (h | ⟨s, hs, hsm, hsk⟩)
          · exact Or.inl (Or.inr h)
          · rcases List.mem_cons.mp hs with rfl | hs'
            · exact Or.inl (Or.inl hsk.symm)
            · exact Or.inr ⟨s, hs', hsm, hsk⟩
      · rw [buildGo, if_neg hmax]
        rw [ih]
        constructor
        · rintro (h | ⟨s, hs, hsm, hsk⟩)
          · exact Or.inl h
          · exact Or.inr ⟨s, by simp [hs], hsm, hsk⟩
        · rintro (h | ⟨s, hs, hsm, hsk⟩)
          · exact Or.inl h
          · rcases List.mem_cons.mp hs with rfl | hs'
            · exact absurd hsm hmax
            · exact Or.inr ⟨s, hs', hsm, hsk⟩

theorem buildGo_no_max (cols : List String) (allRows : List (List Cell))
    (pending : List (List Cell)) (acc : List (String × Entry))
    (h : ∀ r ∈ pending, isMaxRow cols r = false) :
    buildGo cols allRows pending acc = acc := by
  induction pending with
  | nil => rfl
  | cons r rest ih =>
      have hr : isMaxRow cols r = false := h r (by simp)
      simp only [buildGo, hr, Bool.false_eq_true, if_false]
      exact ih (fun s hs => h s (by simp [hs]))

theorem selectScore_of_empty (t : Table) (h : buildResults t = []) :
    selectScore t = PFloat.inf := by
  simp only [selectScore]
  rw [h]
  rfl

/-- Claim C1. The final score is selected by trying the chain-pair keys
`A-B`, `B-A`, `A-C`, `C-A` in that fixed order, returning the `min.ipSAE` of
the first key present (so a table with both `A-B` and `C-A` yields `A-B`'s
min ipSAE); when none of the four keys is present but at least one pair was
parsed, the first-encountered pair (head of the insertion-ordered results)
is used. -/
theorem score_priority_selection (t : Table) (k : String) (e : Entry) :
    (dictFind (buildResults t) "A-B" = some e → selectScore t = ipsaeOf t.cols e) ∧
    (dictFind (buildResults t) "A-B" = none → dictFind (buildResults t) "B-A" = some e →
      selectScore t = ipsaeOf t.cols e) ∧
    (dictFind (buildResults t) "A-B" = none → dictFind (buildResults t) "B-A" = none →
      dictFind (buildResults t) "A-C" = some e → selectScore t = ipsaeOf t.cols e) ∧
    (dictFind (buildResults t) "A-B" = none → dictFind (buildResults t) "B-A" = none →
      dictFind (buildResults t) "A-C" = none → dictFind (buildResults t) "C-A" = some e →
      selectScore t = ipsaeOf t.cols e) ∧
    (dictFind (buildResults t) "A-B" = none → dictFind (buildResults t) "B-A" = none →
      dictFind (buildResults t) "A-C" = none → dictFind (buildResults t) "C-A" = none →
      (buildResults t).head? = some (k, e) → selectScore t = ipsaeOf t.cols e) := by
  refine ⟨fun h1 => ?_, fun h1 h2 => ?_, fun h1 h2 h3 => ?_, fun h1 h2 h3 h4 => ?_,
    fun h1 h2 h3 h4 h5 => ?_⟩
  · simp [selectScore, priorityPairs, List.findSome?_cons, h1]
  · simp [selectScore, priorityPairs, List.findSome?_cons, h1, h2]
  · simp [selectScore, priorityPairs, List.findSome?_cons, h1, h2, h3]
  · simp [selectScore, priorityPairs, List.findSome?_cons, h1, h2, h3, h4]
  · cases hrs : buildResults t with
    | nil => rw [hrs] at h5; simp at h5
    | cons p tl =>
        rw [hrs] at h5
        simp only [List.head?_cons, Option.some.injEq] at h5
        subst h5
        simp [selectScore, priorityPairs, List.findSome?_cons, hrs ▸ h1, hrs ▸ h2,
          hrs ▸ h3, hrs ▸ h4, hrs]

/-- Witness for C1: on a table containing both `A-B` and `C-A` pairs, the
score equals the `A-B` pair's min ipSAE (here `1/2`, not `C-A`'s `1/5`). -/
theorem score_priority_selection_witness :
    dictFind (buildResults tableABCA) "A-B" =
      some ⟨[.num (mkRat 7 10), .num 2], [some (mkRat 1 2), some 1]⟩ ∧
    (dictFind (buildResults tableABCA) "C-A").isSome = true ∧
    selectScore tableABCA = PFloat.val (mkRat 1 2) :=
  ⟨by decide, by decide,
    (score_priority_selection tableABCA "A-B"
      ⟨[.num (mkRat 7 10), .num 2], [some (mkRat 1 2), some 1]⟩).1 (by decide)⟩

/-- Claim C3. The function `calculate_ipsae` returns positive infinity (the sentinel worst
score) instead of raising when: no interpreter-by-workdir invocation exits
zero; the derived results file is unreadable; or the parsed table yields an
empty chain-pair set (no `max` rows). -/
theorem calculate_ipsae_failure_sentinel (outcomes : List Bool)
    (parsed : Option Table) (t : Table) :
    ((∀ o ∈ outcomes, o = false) → calculate_ipsae outcomes parsed = PFloat.inf) ∧
    (calculate_ipsae outcomes none = PFloat.inf) ∧
    ((∀ r ∈ t.rows, isMaxRow t.cols r = false) →
      calculate_ipsae outcomes (some t) = PFloat.inf) := by
  refine ⟨fun h => ?_, ?_, fun h => ?_⟩
  · have hany : outcomes.any (fun o => o = true) = false := by
      simp only [List.any_eq_false, decide_eq_true_eq]
      intro o ho
      simp [h o ho]
    unfold calculate_ipsae
    rw [hany]
    rfl
  · unfold calculate_ipsae
    split <;> rfl
  · have hempty : buildResults t = [] := buildGo_no_max t.cols t.rows t.rows [] h
    unfold calculate_ipsae
    split
    · exact selectScore_of_empty t hempty
    · rfl

/-- Witness for C3 at concrete inputs: an all-failing invocation sweep, an
unreadable results file, and a readable table with no `max` rows all give
positive infinity. -/
theorem calculate_ipsae_failure_sentinel_witness :
    calculate_ipsae [false, false] (some tableABCA) = PFloat.inf ∧
    calculate_ipsae [true] none = PFloat.inf ∧
    calculate_ipsae [true] (some tableNoMax) = PFloat.inf :=
  ⟨(calculate_ipsae_failure_sentinel [false, false] (some tableABCA) tableNoMax).1
      (by decide),
   (calculate_ipsae_failure_sentinel [true] none tableNoMax).2.1,
   (calculate_ipsae_failure_sentinel [true] none tableNoMax).2.2 (by decide)⟩

/-- The minimum `min?` on a list of rationals, characterised semantically. -/
theorem rat_min?_eq_some_iff (xs : List ℚ) (m : ℚ) :
    xs.min? = some m ↔ m ∈ xs ∧ ∀ b ∈ xs, m ≤ b := by
  constructor
  · intro h
    refine ⟨List.min?_mem (fun a b => min_choice a b) h, fun b hb => ?_⟩
    exact (List.le_min?_iff (fun a b c => le_min_iff) h).1 (le_refl m) b hb
  · rintro ⟨hmem, hle⟩
    cases hx : xs.min? with
    | none =>
        rw [List.min?_eq_none_iff] at hx
        rw [hx] at hmem
        simp at hmem
    | some a =>
        have ha : a ∈ xs := List.min?_mem (fun a b => min_choice a b) hx
        have h2 : a ≤ m := (List.le_min?_iff (fun a b c => le_min_iff) hx).1 (le_refl a) m hmem
        rw [le_antisymm h2 (hle a ha)]

/-- Claim C2. Under the table invariant (at most one `max` row per chain pair):
each `max`-typed row yields a results entry keyed by its dash-joined
Chn1/Chn2 pair whose
`max` record holds exactly the metric columns (index 5 up to, but excluding,
the last column), whose `min` record is the column-wise minimum over the
rows with the same `Chn1`/`Chn2` and `Type ≠ "max"` (`none`, i.e. NaN, over
an empty selection; otherwise an attained lower bound); and the derived key
set is exactly the set of chain-pair keys of the `max` rows. -/
theorem result_table_chain_pairs (t : Table)
    (hone : ∀ r s, r ∈ t.rows → s ∈ t.rows → isMaxRow t.cols r = true →
      isMaxRow t.cols s = true → pairKey t.cols r = pairKey t.cols s → r = s) :
    (∀ r ∈ t.rows, isMaxRow t.cols r = true →
      dictFind (buildResults t) (pairKey t.cols r) = some (entryFor t.cols t.rows r) ∧
      (entryFor t.cols t.rows r).maxRec =
        (metricCols t.cols).map (fun c => cellAt t.cols r c) ∧
      (∀ j, (hj : j < (metricCols t.cols).length) →
        (((entryFor t.cols t.rows r).minRec.getD j none = none ↔
            t.rows.filter (fun x => matchesPair t.cols r x) = []) ∧
          ∀ m, (entryFor t.cols t.rows r).minRec.getD j none = some m →
            (∃ x ∈ t.rows.filter (fun x => matchesPair t.cols r x),
              cellQ (cellAt t.cols x ((metricCols t.cols).getD j "")) = m) ∧
            ∀ x ∈ t.rows.filter (fun x => matchesPair t.cols r x),
              m ≤ cellQ (cellAt t.cols x ((metricCols t.cols).getD j ""))))) ∧
    (∀ k, (dictFind (buildResults t) k).isSome = true ↔
      ∃ r ∈ t.rows, isMaxRow t.cols r = true ∧ pairKey t.cols r = k) := by
  constructor
  · intro r hr hmax
    refine ⟨?_, rfl, ?_⟩
    · exact buildGo_find t.cols t.rows t.rows [] (pairKey t.cols r)
        (entryFor t.cols t.rows r)
        (fun s hs hsm hsk => by rw [hone s r hs hr hsm hmax hsk])
        (Or.inr ⟨r, hr, hmax, rfl⟩)
    · intro j hj
      have hmap : (entryFor t.cols t.rows r).minRec.getD j none =
          ((t.rows.filter (fun x => matchesPair t.cols r x)).map
            (fun x => cellQ (cellAt t.cols x ((metricCols t.cols).getD j "")))).min? := by
        show ((metricCols t.cols).map _).getD j none = _
        rw [List.getD_eq_getElem?_getD, List.getElem?_map]
        rw [List.getElem?_eq_getElem hj]
        simp only [Option.map_some', Option.getD_some]
        rw [List.getD_eq_getElem?_getD, List.getElem?_eq_getElem hj]
        rfl
      rw [hmap]
      constructor
      · rw [List.min?_eq_none_iff, List.map_eq_nil_iff]
      · intro m hm
        rw [rat_min?_eq_some_iff] at hm
        obtain ⟨hmem, hle⟩ := hm
        constructor
        · obtain ⟨x, hx, hxe⟩ := List.mem_map.mp hmem
          exact ⟨x, hx, hxe⟩
        · intro x hx
          exact hle _ (List.mem_map.mpr ⟨x, hx, rfl⟩)
  · intro k
    rw [show buildResults t = buildGo t.cols t.rows t.rows [] from rfl,
      buildGo_find_isSome, dictFind_nil]
    simp

/-- Witness for C2 on a concrete table: the `A-B` entry carries the columns
5..-2 as its `max` record and the column-wise minimum as its `min` record,
and the derived keys are exactly A-B and C-A. -/
theorem tableABCA_one_max_per_pair :
    ∀ r s, r ∈ tableABCA.rows → s ∈ tableABCA.rows → isMaxRow tableABCA.cols r = true →
      isMaxRow tableABCA.cols s = true → pairKey tableABCA.cols r = pairKey tableABCA.cols s →
      r = s := by
  intro r s hr hs
  fin_cases hr <;> fin_cases hs <;> decide

theorem result_table_chain_pairs_witness :
    dictFind (buildResults tableABCA) (pairKey tableABCA.cols (sampleRow "A" "B" "max" (mkRat 7 10) 2)) =
      some (entryFor tableABCA.cols tableABCA.rows (sampleRow "A" "B" "max" (mkRat 7 10) 2)) ∧
    (dictFind (buildResults tableABCA) "A-B").isSome = true ∧
    ¬ (dictFind (buildResults tableABCA) "B-A").isSome = true :=
  ⟨((result_table_chain_pairs tableABCA tableABCA_one_max_per_pair).1
      (sampleRow "A" "B" "max" (mkRat 7 10) 2) (by decide) (by decide)).1,
   ((result_table_chain_pairs tableABCA tableABCA_one_max_per_pair).2 "A-B").mpr
      ⟨sampleRow "A" "B" "max" (mkRat 7 10) 2, by decide, by decide, by decide⟩,
   fun h => by
     have := ((result_table_chain_pairs tableABCA tableABCA_one_max_per_pair).2 "B-A").mp h
     revert this
     decide⟩

theorem pfLt_irrefl (a : PFloat) : pfLt a a = false := by
  cases a <;> simp [pfLt]

theorem pfLeTotal_total (a b : PFloat) : pfLeTotal a b || pfLeTotal b a := by
  cases a <;> cases b <;> simp [pfLeTotal] <;> exact le_total _ _

theorem pfLeTotal_trans (a b c : PFloat) :
    pfLeTotal a b → pfLeTotal b c → pfLeTotal a c := by
  cases a <;> cases b <;> cases c <;> simp [pfLeTotal] <;>
    exact fun h1 h2 => le_trans h1 h2

theorem pfLt_pfLeTotal_asymm (a b : PFloat) (h1 : pfLt a b = true)
    (h2 : pfLeTotal b a = true) : False := by
  cases a <;> cases b <;> simp [pfLt, pfLeTotal] at h1 h2 <;>
    exact absurd h1 (not_lt.mpr h2)

theorem pfLeTotal_eq_not_lt (a b : PFloat) (ha : a ≠ PFloat.nan)
    (hb : b ≠ PFloat.nan) : pfLeTotal a b = !(pfLt b a) := by
  cases a with
  | nan => exact absurd rfl ha
  | inf =>
      cases b with
      | nan => exact absurd rfl hb
      | inf => rfl
      | val r => rfl
  | val q =>
      cases b with
      | nan => exact absurd rfl hb
      | inf => rfl
      | val r =>
          show decide (q ≤ r) = !decide (r < q)
          by_cases h : q ≤ r
          · simp [h, not_lt.mpr h]
          · simp [h, not_le.mp h]

theorem singleRun_pairwise_total (ds : List Design)
    (hnan : ∀ d ∈ ds, d.ipsae ≠ PFloat.nan)
    (hrun : isSingleRun designLt ds = true) :
    ds.Pairwise (fun a b => pfLeTotal a.ipsae b.ipsae = true) := by
  induction ds with
  | nil => exact List.Pairwise.nil
  | cons a rest ih =>
      cases rest with
      | nil => simp
      | cons b rest' =>
          rw [show isSingleRun designLt (a :: b :: rest') =
            (!(designLt b a) && isSingleRun designLt (b :: rest')) from rfl,
            Bool.and_eq_true] at hrun
          obtain ⟨h1, h2⟩ := hrun
          have hab : pfLeTotal a.ipsae b.ipsae = true := by
            rw [pfLeTotal_eq_not_lt a.ipsae b.ipsae (hnan a (by simp))
              (hnan b (by simp))]
            simpa [designLt] using h1
          have hpb := ih (fun d hd => hnan d (List.mem_cons_of_mem a hd)) h2
          constructor
          · intro x hx
            rcases List.mem_cons.mp hx with rfl | hx'
            · exact hab
            · exact pfLeTotal_trans a.ipsae b.ipsae x.ipsae hab
                ((List.pairwise_cons.mp hpb).1 x hx')
          · exact hpb

theorem sortDesigns_perm (ds : List Design) : (sortDesigns ds).Perm ds := by
  unfold sortDesigns pySort
  split
  · exact List.Perm.refl ds
  · exact List.mergeSort_perm ds _

theorem sortDesigns_eq_mergeSort_total (ds : List Design)
    (hnan : ∀ d ∈ ds, d.ipsae ≠ PFloat.nan) :
    sortDesigns ds = ds.mergeSort (fun a b => pfLeTotal a.ipsae b.ipsae) := by
  unfold sortDesigns pySort
  split
  · rename_i hrun
    exact (List.mergeSort_of_sorted (singleRun_pairwise_total ds hnan hrun)).symm
  · have hmap : (ds.mergeSort (fun a b => !(designLt b a))).map (fun d : Design => d) =
        (ds.map (fun d : Design => d)).mergeSort
          (fun a b => pfLeTotal a.ipsae b.ipsae) := by
      refine List.map_mergeSort ?_
      intro a ha b hb
      rw [pfLeTotal_eq_not_lt a.ipsae b.ipsae (hnan a ha) (hnan b hb)]
      rfl
    simpa using hmap

/-- Claim C5, counterexample. With scores 3, NaN, 1 every adjacent key
comparison is false (NaN compares false both ways), so Timsort sees the whole
list as one natural run and returns it unchanged: the design with score 1
receives rank 3 while the design with score 3 receives rank 1, so a strictly
smaller score gets a strictly larger rank and the ranking is neither sorted
ascending nor monotonic. -/
theorem ranking_nan_counterexample :
    sortDesigns nanScoredDesigns = nanScoredDesigns ∧
    (rankDesigns nanScoredDesigns).map (fun rd => rd.ipsae) =
      [PFloat.val 3, PFloat.nan, PFloat.val 1] ∧
    (rankDesigns nanScoredDesigns).map (fun rd => rd.ipsaeRank) = [1, 2, 3] ∧
    pfLt (PFloat.val 1) (PFloat.val 3) = true ∧
    ¬ (3 : ℕ) < 1 :=
  ⟨by decide, by decide, by decide, by decide, by decide⟩

/-- Claim C5, amended. The ranking always permutes the input designs and
assigns rank `i + 1` to sorted position `i` (1-based contiguous `1..N`,
never shared).  Whenever the scores are free of NaN — the case in which the
sort's key comparisons are consistent and CPython's ordering behaviour is
defined — the result is additionally sorted ascending by score (no later
design's score is strictly below an earlier one's), stable (an in-order pair
whose first score is not strictly greater stays in order, so ties keep input
order), and monotonic: a strictly smaller score receives a strictly smaller
rank.  With a NaN score present the ordering guarantees fail, as the
counterexample shows. -/
theorem ranking_sorted_stable_contiguous (ds : List Design) :
    (sortDesigns ds).Perm ds ∧
    (rankDesigns ds).length = ds.length ∧
    (∀ i, (hi : i < (rankDesigns ds).length) →
      ((rankDesigns ds).get ⟨i, hi⟩).ipsaeRank = i + 1) ∧
    (∀ i j, (hi : i < (rankDesigns ds).length) → (hj : j < (rankDesigns ds).length) →
      ((rankDesigns ds).get ⟨i, hi⟩).ipsaeRank = ((rankDesigns ds).get ⟨j, hj⟩).ipsaeRank →
      i = j) ∧
    ((∀ d ∈ ds, d.ipsae ≠ PFloat.nan) →
      (sortDesigns ds).Pairwise (fun a b => pfLt b.ipsae a.ipsae = false) ∧
      (∀ a b : Design, [a, b].Sublist ds → pfLt b.ipsae a.ipsae = false →
        [a, b].Sublist (sortDesigns ds)) ∧
      (∀ i j, (hi : i < (rankDesigns ds).length) → (hj : j < (rankDesigns ds).length) →
        pfLt ((rankDesigns ds).get ⟨i, hi⟩).ipsae
          ((rankDesigns ds).get ⟨j, hj⟩).ipsae = true →
        ((rankDesigns ds).get ⟨i, hi⟩).ipsaeRank <
          ((rankDesigns ds).get ⟨j, hj⟩).ipsaeRank)) := by
  have hperm : (sortDesigns ds).Perm ds := sortDesigns_perm ds
  have hlen : (rankDesigns ds).length = ds.length := by
    simp [rankDesigns, List.length_map, List.enum_length, hperm.length_eq]
  have hrank : ∀ i, (hi : i < (rankDesigns ds).length) →
      ((rankDesigns ds).get ⟨i, hi⟩).ipsaeRank = i + 1 := by
    intro i hi
    simp [rankDesigns, List.get_eq_getElem, List.getElem_map, List.getElem_enum]
  have hdes : ∀ i, (hi : i < (rankDesigns ds).length) →
      ((rankDesigns ds).get ⟨i, hi⟩).toDesign =
        (sortDesigns ds).get ⟨i, by
          have := hi
          simpa [rankDesigns, List.length_map, List.enum_length] using this⟩ := by
    intro i hi
    simp [rankDesigns, List.get_eq_getElem, List.getElem_map, List.getElem_enum]
  refine ⟨hperm, hlen, hrank, ?_, fun hnan => ?_⟩
  · intro i j hi hj h
    have := hrank i hi
    have := hrank j hj
    omega
  · have hsortT : sortDesigns ds =
        ds.mergeSort (fun a b => pfLeTotal a.ipsae b.ipsae) :=
      sortDesigns_eq_mergeSort_total ds hnan
    have hsortedT : (sortDesigns ds).Pairwise
        (fun a b => pfLeTotal a.ipsae b.ipsae = true) := by
      rw [hsortT]
      exact List.sorted_mergeSort
        (fun a b c => pfLeTotal_trans a.ipsae b.ipsae c.ipsae)
        (fun a b => pfLeTotal_total a.ipsae b.ipsae) ds
    have hmemnan : ∀ d ∈ sortDesigns ds, d.ipsae ≠ PFloat.nan := fun d hd =>
      hnan d (hperm.mem_iff.mp hd)
    refine ⟨?_, ?_, ?_⟩
    · refine hsortedT.imp_of_mem ?_
      intro a b ha hb hT
      rw [pfLeTotal_eq_not_lt a.ipsae b.ipsae (hmemnan a ha) (hmemnan b hb)] at hT
      simpa using hT
    · intro a b hab hle
      have ha : a ∈ ds := hab.subset (by simp)
      have hb : b ∈ ds := hab.subset (by simp)
      rw [hsortT]
      refine List.pair_sublist_mergeSort
        (fun a b c => pfLeTotal_trans a.ipsae b.ipsae c.ipsae)
        (fun a b => pfLeTotal_total a.ipsae b.ipsae) ?_ hab
      rw [pfLeTotal_eq_not_lt a.ipsae b.ipsae (hnan a ha) (hnan b hb), hle]
      rfl
    · intro i j hi hj hlt
      rw [hrank i hi, hrank j hj]
      have hij : i ≠ j := by
        intro h
        subst h
        rw [hdes i hi] at hlt
        exact absurd hlt (by simp [pfLt_irrefl])
      rcases Nat.lt_or_ge i j with h | h
      · omega
      · exfalso
        have hji : j < i := lt_of_le_of_ne h (Ne.symm hij)
        have hi' : i < (sortDesigns ds).length := by
          have := hi
          simpa [rankDesigns, List.length_map, List.enum_length] using this
        have hj' : j < (sortDesigns ds).length := by
          have := hj
          simpa [rankDesigns, List.length_map, List.enum_length] using this
        have hpl := (List.pairwise_iff_get.mp hsortedT) ⟨j, hj'⟩ ⟨i, hi'⟩ hji
        rw [hdes i hi, hdes j hj] at hlt
        exact pfLt_pfLeTotal_asymm _ _ hlt hpl

/-- Witness for the amended C5 at a concrete NaN-free design list. -/
theorem ranking_sorted_stable_contiguous_witness :
    (∀ d ∈ sampleDesigns, d.ipsae ≠ PFloat.nan) ∧
    (sortDesigns sampleDesigns).Perm sampleDesigns ∧
    (sortDesigns sampleDesigns).Pairwise
      (fun a b => pfLt b.ipsae a.ipsae = false) :=
  ⟨by decide, (ranking_sorted_stable_contiguous sampleDesigns).1,
   ((ranking_sorted_stable_contiguous sampleDesigns).2.2.2.2 (by decide)).1⟩

/-- Claim C10. When the selected chain pair (here the first priority key `A-B`)
has a `max` row but no matching non-max rows, the column-wise minimum is taken
over an empty selection, so the score is NaN — not positive infinity — and a
NaN-scored design still participates in the sort (the sort permutes, never
drops, designs). -/
theorem empty_min_selection_nan (t : Table) (r : List Cell)
    (hone : ∀ r' s, r' ∈ t.rows → s ∈ t.rows → isMaxRow t.cols r' = true →
      isMaxRow t.cols s = true → pairKey t.cols r' = pairKey t.cols s → r' = s)
    (hr : r ∈ t.rows) (hmax : isMaxRow t.cols r = true)
    (hk : pairKey t.cols r = "A-B")
    (hip : (metricCols t.cols).indexOf "ipSAE" < (metricCols t.cols).length)
    (hempty : t.rows.filter (fun x => matchesPair t.cols r x) = []) :
    selectScore t = PFloat.nan ∧ PFloat.nan ≠ PFloat.inf ∧
    ∀ ds : List Design, (sortDesigns ds).Perm ds := by
  refine ⟨?_, by decide, fun ds => sortDesigns_perm ds⟩
  have hfind : dictFind (buildResults t) "A-B" = some (entryFor t.cols t.rows r) := by
    rw [← hk]
    exact buildGo_find t.cols t.rows t.rows [] (pairKey t.cols r) (entryFor t.cols t.rows r)
      (fun s hs hsm hsk => by rw [hone s r hs hr hsm hmax hsk])
      (Or.inr ⟨r, hr, hmax, rfl⟩)
  have hsel : selectScore t = ipsaeOf t.cols (entryFor t.cols t.rows r) := by
    simp [selectScore, priorityPairs, List.findSome?_cons, hfind]
  rw [hsel]
  have hminrec : ∀ c, ((t.rows.filter (fun x => matchesPair t.cols r x)).map
      (fun x => cellQ (cellAt t.cols x c))).min? = none := by
    intro c
    rw [hempty]
    rfl
  have hlen : (entryFor t.cols t.rows r).minRec.length = (metricCols t.cols).length := by
    simp [entryFor]
  have hgd : (entryFor t.cols t.rows r).minRec.getD
      ((metricCols t.cols).indexOf "ipSAE") none = none := by
    show ((metricCols t.cols).map _).getD _ none = none
    rw [List.getD_eq_getElem?_getD, List.getElem?_map, List.getElem?_eq_getElem hip]
    simp only [Option.map_some', Option.getD_some]
    exact hminrec _
  have hiplen : (metricCols t.cols).indexOf "ipSAE" <
      (entryFor t.cols t.rows r).minRec.length := by
    rw [hlen]
    exact hip
  simp only [ipsaeOf]
  rw [if_pos hiplen, hgd]

/-- Witness for C10: a table whose only row is an `A-B` `max` row gives NaN. -/
theorem empty_min_selection_nan_witness :
    selectScore tableEmptyMin = PFloat.nan ∧
    (sortDesigns [⟨"d.cif", "d", "AA", "AA", PFloat.nan⟩]).Perm
      [⟨"d.cif", "d", "AA", "AA", PFloat.nan⟩] :=
  ⟨(empty_min_selection_nan tableEmptyMin (sampleRow "A" "B" "max" (mkRat 7 10) 2)
      (by intro r' s hr hs; fin_cases hr <;> fin_cases hs <;> decide)
      (by decide) (by decide) (by decide) (by decide) (by decide)).1,
   (empty_min_selection_nan tableEmptyMin (sampleRow "A" "B" "max" (mkRat 7 10) 2)
      (by intro r' s hr hs; fin_cases hr <;> fin_cases hs <;> decide)
      (by decide) (by decide) (by decide) (by decide) (by decide)).2.2
      [⟨"d.cif", "d", "AA", "AA", PFloat.nan⟩]⟩

theorem wrapChunks_nil (fuel : ℕ) : wrapChunks fuel [] = [] := by
  cases fuel <;> rfl

theorem wrapChunks_cons (fuel : ℕ) (s : List Char) (h : ¬ s = []) :
    wrapChunks (fuel + 1) s = s.take 80 :: wrapChunks fuel (s.drop 80) := by
  have : s.isEmpty = false := by
    cases s with
    | nil => exact absurd rfl h
    | cons c cs => rfl
  simp [wrapChunks, this]

theorem wrapChunks_join (fuel : ℕ) (s : List Char) (h : s.length ≤ fuel) :
    (wrapChunks fuel s).flatten = s := by
  induction fuel generalizing s with
  | zero =>
      have : s = [] := List.length_eq_zero.mp (Nat.le_zero.mp h)
      rw [this]
      rfl
  | succ fuel ih =>
      by_cases hs : s = []
      · rw [hs, wrapChunks_nil]
        rfl
      · rw [wrapChunks_cons fuel s hs]
        have hlen : (s.drop 80).length ≤ fuel := by
          rw [List.length_drop]
          have hpos : 0 < s.length := List.length_pos.mpr hs
          omega
        rw [List.flatten_cons, ih (s.drop 80) hlen, List.take_append_drop]

theorem wrapChunks_le_80 (fuel : ℕ) (s c : List Char) (hc : c ∈ wrapChunks fuel s) :
    c.length ≤ 80 := by
  induction fuel generalizing s with
  | zero => simp [wrapChunks] at hc
  | succ fuel ih =>
      by_cases hs : s = []
      · rw [hs, wrapChunks_nil] at hc
        simp at hc
      · rw [wrapChunks_cons fuel s hs] at hc
        rcases List.mem_cons.mp hc with rfl | hc'
        · rw [List.length_take]
          omega
        · exact ih (s.drop 80) hc'

theorem wrapSeq_170 (s : List Char) (h : s.length = 170) :
    (wrapSeq s).map List.length = [80, 80, 10] := by
  have h1 : ¬ s = [] := by
    intro e
    rw [e] at h
    simp at h
  have hd1 : (s.drop 80).length = 90 := by
    rw [List.length_drop, h]
  have hd2 : ((s.drop 80).drop 80).length = 10 := by
    rw [List.length_drop, hd1]
  have h2 : ¬ s.drop 80 = [] := by
    intro e
    rw [e] at hd1
    simp at hd1
  have h3 : ¬ (s.drop 80).drop 80 = [] := by
    intro e
    rw [e] at hd2
    simp at hd2
  have hd3 : ((s.drop 80).drop 80).drop 80 = [] := by
    apply List.drop_eq_nil_of_le
    omega
  show (wrapChunks s.length s).map List.length = [80, 80, 10]
  rw [h, show (170 : ℕ) = 169 + 1 from rfl, wrapChunks_cons 169 s h1,
    show (169 : ℕ) = 168 + 1 from rfl, wrapChunks_cons 168 _ h2,
    show (168 : ℕ) = 167 + 1 from rfl, wrapChunks_cons 167 _ h3, hd3, wrapChunks_nil]
  simp [List.length_take, h, hd1, hd2]

/-- Claim C6. Every design is written as the exact header
built from its id, its score at four decimal places and its rank (separators
`|ipSAE=` and `|rank=`) followed by its sequence wrapped at 80
characters per line (the chunks concatenate back to the sequence and none
exceeds 80 characters); a 170-character sequence yields two 80-character
lines and one 10-character line. -/
theorem write_fasta_design_lines (d : RankedDesign) :
    designLines d =
      (">" ++ d.id ++ "|ipSAE=" ++ fmt4 d.ipsae ++ "|rank=" ++ toString d.ipsaeRank) ::
        (wrapSeq d.sequence.data).map (fun l => String.mk l) ∧
    (wrapSeq d.sequence.data).flatten = d.sequence.data ∧
    (∀ c ∈ wrapSeq d.sequence.data, c.length ≤ 80) ∧
    (d.sequence.data.length = 170 →
      (wrapSeq d.sequence.data).map List.length = [80, 80, 10]) := by
  refine ⟨rfl, wrapChunks_join _ _ (le_refl _), ?_, fun h => wrapSeq_170 _ h⟩
  intro c hc
  exact wrapChunks_le_80 _ _ c hc

set_option maxRecDepth 20000 in
/-- Witness for C6: the 170-character sequence wraps as 80 + 80 + 10, and the
concrete header renders with the score at four decimal places. -/
theorem write_fasta_design_lines_witness :
    sampleLongDesign.sequence.data.length = 170 ∧
    (wrapSeq sampleLongDesign.sequence.data).map List.length = [80, 80, 10] ∧
    fastaHeader sampleLongDesign = ">rank00_d1|ipSAE=3.1416|rank=2" :=
  ⟨by decide, (write_fasta_design_lines sampleLongDesign).2.2.2 (by decide), by decide⟩

theorem replCifGo_nil (rep : List Char) (fuel : ℕ) : replCifGo rep fuel [] = [] := by
  cases fuel <;> rfl

theorem replCifGo_no_occurrence (rep : List Char) (a : List Char) (fuel : ℕ)
    (hfuel : (a ++ ".cif".data).length ≤ fuel)
    (hno : ∀ i, i < a.length → startsDotCif ((a ++ ".cif".data).drop i) = false) :
    replCifGo rep fuel (a ++ ".cif".data) = a ++ rep := by
  induction a generalizing fuel with
  | nil =>
      cases fuel with
      | zero => simp [List.length_append] at hfuel
      | succ f =>
          show replCifGo rep (f + 1) ('.' :: 'c' :: 'i' :: 'f' :: []) = [] ++ rep
          rw [replCifGo, if_pos (by rfl)]
          simp [replCifGo_nil]
  | cons c a' ih =>
      cases fuel with
      | zero => simp [List.length_append] at hfuel
      | succ f =>
          have h0 : startsDotCif (c :: (a' ++ ".cif".data)) = false := by
            have := hno 0 (by simp)
            simpa using this
          show replCifGo rep (f + 1) (c :: (a' ++ ".cif".data)) = (c :: a') ++ rep
          rw [replCifGo, if_neg (by simp [h0])]
          have hf : (a' ++ ".cif".data).length ≤ f := by
            simp only [List.length_append, List.cons_append, List.length_cons] at hfuel ⊢
            omega
          have hno' : ∀ i, i < a'.length →
              startsDotCif ((a' ++ ".cif".data).drop i) = false := by
            intro i hi
            have := hno (i + 1) (by simp; omega)
            simpa [List.drop_succ_cons] using this
          rw [ih f hf hno']
          rfl

/-- Claim C4, counterexample. The code replaces every occurrence of `.cif`, not
just the extension: for the structure path `a.cif.cif` (and `pae_cutoff =
15.7`, `dist_cutoff = 15`) the path the parser reads differs from the path
obtained by replacing only the extension. -/
theorem results_path_counterexample :
    resultsPath "a.cif.cif" (mkRat 157 10) 15 = "a_15_15.txt_15_15.txt" ∧
    specExtReplacedPath "a.cif.cif" (mkRat 157 10) 15 = "a.cif_15_15.txt" ∧
    resultsPath "a.cif.cif" (mkRat 157 10) 15 ≠
      specExtReplacedPath "a.cif.cif" (mkRat 157 10) 15 :=
  ⟨by decide, by decide, by decide⟩

/-- Claim C4, amended. The results path is the structure path with every
occurrence of the substring `.cif` replaced by
the cutoff suffix (both cutoffs truncated toward zero);
when `.cif` occurs only as the final extension, this coincides with replacing
the extension.  The derivation is a pure function of its three inputs. -/
theorem results_path_extension (a : List Char) (pae dist : ℚ)
    (hno : ∀ i, i < a.length → startsDotCif ((a ++ ".cif".data).drop i) = false) :
    resultsPath (String.mk (a ++ ".cif".data)) pae dist =
      String.mk a ++ cifSuffix pae dist := by
  show String.mk (replCifGo (cifSuffix pae dist).data (a ++ ".cif".data).length
    (a ++ ".cif".data)) = String.mk a ++ cifSuffix pae dist
  rw [replCifGo_no_occurrence (cifSuffix pae dist).data a _ (le_refl _) hno]
  rfl

/-- Witness for the amended C4: `model.cif` with cutoffs `15.7` and `15.2`
derives `model_15_15.txt` (both cutoffs integer-truncated). -/
theorem results_path_extension_witness :
    (∀ i, i < ("model".data).length →
      startsDotCif (("model".data ++ ".cif".data).drop i) = false) ∧
    resultsPath (String.mk ("model".data ++ ".cif".data)) (mkRat 157 10) (mkRat 152 10) =
      String.mk "model".data ++ cifSuffix (mkRat 157 10) (mkRat 152 10) ∧
    resultsPath "model.cif" (mkRat 157 10) (mkRat 152 10) = "model_15_15.txt" :=
  ⟨by decide, results_path_extension "model".data (mkRat 157 10) (mkRat 152 10) (by decide),
   by decide⟩

/-- Claim C7, counterexample. Invoked without the directory argument and with no
candidate directory existing, the program proceeds with the argparse default
`test/final_ranked_designs` (auto-detection never runs), whereas the claim
requires the sweep to run and the process to exit non-zero. -/
theorem cli_autodetect_counterexample :
    resolveDir (argFinalDesignsDir none) (fun _ => false) =
      .ok "test/final_ranked_designs" ∧
    specResolveNoArg (fun _ => false) = .error () ∧
    resolveDir (argFinalDesignsDir none) (fun _ => false) ≠
      specResolveNoArg (fun _ => false) :=
  ⟨rfl, rfl, fun h => Except.noConfusion h⟩

/-- Claim C7, amended. An absent `--final_designs_dir` flag resolves to the
argparse default `test/final_ranked_designs` with no auto-detection; the
candidate sweep (`output/final_ranked_designs`, `test/final_ranked_designs`,
`final_ranked_designs`, in order, first existing wins, exiting non-zero when
none exists) runs only when the flag is passed without a value (parsed as
`None`); the two cutoff options are floats defaulting to 15.0. -/
theorem cli_dir_resolution (pathExists : String → Bool) (d : String) :
    (argFinalDesignsDir none = some "test/final_ranked_designs" ∧
      resolveDir (argFinalDesignsDir none) pathExists =
        .ok "test/final_ranked_designs") ∧
    (argFinalDesignsDir (some (some d)) = some d ∧
      resolveDir (argFinalDesignsDir (some (some d))) pathExists = .ok d) ∧
    (pathExists "output/final_ranked_designs" = true →
      resolveDir (argFinalDesignsDir (some none)) pathExists =
        .ok "output/final_ranked_designs") ∧
    (pathExists "output/final_ranked_designs" = false →
      pathExists "test/final_ranked_designs" = true →
      resolveDir (argFinalDesignsDir (some none)) pathExists =
        .ok "test/final_ranked_designs") ∧
    (pathExists "output/final_ranked_designs" = false →
      pathExists "test/final_ranked_designs" = false →
      pathExists "final_ranked_designs" = true →
      resolveDir (argFinalDesignsDir (some none)) pathExists =
        .ok "final_ranked_designs") ∧
    ((∀ c ∈ dirCandidates, pathExists c = false) →
      resolveDir (argFinalDesignsDir (some none)) pathExists = .error ()) ∧
    defaultPaeCutoff = 15 ∧ defaultDistCutoff = 15 := by
  refine ⟨⟨rfl, rfl⟩, ⟨rfl, rfl⟩, fun h1 => ?_, fun h1 h2 => ?_, fun h1 h2 h3 => ?_,
    fun h => ?_, rfl, rfl⟩
  · simp [resolveDir, argFinalDesignsDir, dirCandidates, List.find?_cons, h1]
  · simp [resolveDir, argFinalDesignsDir, dirCandidates, List.find?_cons, h1, h2]
  · simp [resolveDir, argFinalDesignsDir, dirCandidates, List.find?_cons, h1, h2, h3]
  · have h1 := h "output/final_ranked_designs" (by simp [dirCandidates])
    have h2 := h "test/final_ranked_designs" (by simp [dirCandidates])
    have h3 := h "final_ranked_designs" (by simp [dirCandidates])
    simp [resolveDir, argFinalDesignsDir, dirCandidates, List.find?_cons, h1, h2, h3]

/-- Witness for the amended C7: a bare flag with only `final_ranked_designs`
existing sweeps to it; with nothing existing the sweep exits non-zero. -/
theorem cli_dir_resolution_witness :
    resolveDir (argFinalDesignsDir (some none))
      (fun s => s = "final_ranked_designs") = .ok "final_ranked_designs" ∧
    resolveDir (argFinalDesignsDir (some none)) (fun _ => false) = .error () :=
  ⟨(cli_dir_resolution (fun s => s = "final_ranked_designs") "x").2.2.2.2.1
      (by decide) (by decide) (by decide),
   (cli_dir_resolution (fun _ => false) "x").2.2.2.2.2.1 (fun c _ => rfl)⟩

theorem rankDesigns_length (ds : List Design) :
    (rankDesigns ds).length = ds.length := by
  simp [rankDesigns, List.length_map, List.enum_length,
    (sortDesigns_perm ds).length_eq]

/-- Claim C8. Each fatal condition — no `final_*_designs` subdirectory, no
metrics table (neither pattern), zero structure files discovered, zero
designs processed — makes `process_final_designs` exit non-zero (modelled as
`Except.error`), and a successful run always carries at least one design. -/
theorem fatal_conditions_exit (fs : FS) :
    (findFinalSubdir fs = none → process_final_designs fs = .error ()) ∧
    (fs.finalMetricsFiles = [] → fs.allMetricsFiles = [] →
      process_final_designs fs = .error ()) ∧
    (fs.cifFiles = [] → process_final_designs fs = .error ()) ∧
    (processDesigns fs = [] → process_final_designs fs = .error ()) ∧
    (∀ l, process_final_designs fs = .ok l → l ≠ []) := by
  have h4 : processDesigns fs = [] → process_final_designs fs = .error () := by
    intro h
    unfold process_final_designs
    cases findFinalSubdir fs with
    | none => rfl
    | some d =>
        cases metricsCsv fs with
        | none => rfl
        | some m =>
            by_cases hp : fs.paeDirExists = false
            · rw [if_pos hp]
            · rw [if_neg hp]
              simp [h]
  refine ⟨fun h => ?_, fun ha hb => ?_, fun h => ?_, h4, ?_⟩
  · unfold process_final_designs
    rw [h]
  · have hm : metricsCsv fs = none := by
      unfold metricsCsv
      rw [ha, hb]
      rfl
    unfold process_final_designs
    cases findFinalSubdir fs with
    | none => rfl
    | some d => rw [hm]
  · exact h4 (by simp [processDesigns, h])
  · intro l hl
    unfold process_final_designs at hl
    cases hsub : findFinalSubdir fs with
    | none =>
        rw [hsub] at hl
        exact absurd hl (by simp)
    | some d =>
        rw [hsub] at hl
        cases hm : metricsCsv fs with
        | none => rw [hm] at hl; exact absurd hl (by simp)
        | some m =>
            rw [hm] at hl
            by_cases hp : fs.paeDirExists = false
            · rw [if_pos hp] at hl
              exact absurd hl (by simp)
            · rw [if_neg hp] at hl
              simp only [] at hl
              by_cases he : (processDesigns fs).isEmpty
              · rw [if_pos he] at hl
                exact absurd hl (by simp)
              · rw [if_neg he] at hl
                have hds : processDesigns fs ≠ [] := by
                  intro e
                  rw [e] at he
                  exact he rfl
                have hok : l = rankDesigns (processDesigns fs) := by
                  cases hl
                  rfl
                intro hnil
                rw [hok] at hnil
                have := rankDesigns_length (processDesigns fs)
                rw [hnil] at this
                exact hds (List.length_eq_zero.mp this.symm)

/-- Witness for C8: a tree with no `final_*_designs` child exits non-zero, and
so does a complete tree with zero structure files. -/
theorem fatal_conditions_exit_witness :
    process_final_designs fsNoSubdir = .error () ∧
    process_final_designs fsNoCifs = .error () :=
  ⟨(fatal_conditions_exit fsNoSubdir).1 (by decide),
   (fatal_conditions_exit fsNoCifs).2.2.1 rfl⟩

theorem splitOffFirst_append_of_not_mem (ch : Char) (a b : List Char) (h : ch ∉ a) :
    splitOffFirst ch (a ++ ch :: b) = some b := by
  induction a with
  | nil => simp [splitOffFirst]
  | cons c a' ih =>
      have hc : ¬ c = ch := fun e => h (by simp [e])
      simp only [List.cons_append, splitOffFirst, if_neg hc]
      exact ih (fun hm => h (by simp [hm]))

theorem splitOffFirst_eq_none (ch : Char) (a : List Char) (h : ch ∉ a) :
    splitOffFirst ch a = none := by
  induction a with
  | nil => rfl
  | cons c a' ih =>
      have hc : ¬ c = ch := fun e => h (by simp [e])
      simp only [splitOffFirst, if_neg hc]
      exact ih (fun hm => h (by simp [hm]))

/-- Claim C9. A structure file's original name is everything after the first
underscore (the whole name when there is none); a missing `.npz` companion or
unfindable sequence skips the file (its loop iteration yields no design); and
with the directory, metrics and `pae` checks satisfied, skips alone are never
fatal: one surviving design suffices for the run to succeed. -/
theorem original_name_and_skips (fs : FS) (c : CifEntry) (a b : List Char) :
    (('_' : Char) ∉ a → originalName (String.mk (a ++ '_' :: b)) = String.mk b) ∧
    (('_' : Char) ∉ a → originalName (String.mk a) = String.mk a) ∧
    (c.npzExists = false → processOne fs c = none) ∧
    (lookupSeq fs.metricsRows (originalName c.name) = "" →
      lookupChainSeq fs.metricsRows (originalName c.name) = "" →
      processOne fs c = none) ∧
    (findFinalSubdir fs ≠ none → metricsCsv fs ≠ none → fs.paeDirExists = true →
      processDesigns fs ≠ [] →
      process_final_designs fs = .ok (rankDesigns (processDesigns fs))) := by
  refine ⟨fun h => ?_, fun h => ?_, fun h => ?_, fun hs hc => ?_, fun h1 h2 h3 h4 => ?_⟩
  · unfold originalName
    rw [show (String.mk (a ++ '_' :: b)).data = a ++ '_' :: b from rfl,
      splitOffFirst_append_of_not_mem '_' a b h]
  · unfold originalName
    rw [show (String.mk a).data = a from rfl, splitOffFirst_eq_none '_' a h]
  · unfold processOne
    rw [if_pos h]
  · unfold processOne
    by_cases hn : c.npzExists = false
    · rw [if_pos hn]
    · rw [if_neg hn]
      simp [hs, hc]
  · unfold process_final_designs
    cases hsub : findFinalSubdir fs with
    | none => exact absurd hsub h1
    | some d =>
        cases hm : metricsCsv fs with
        | none => exact absurd hm h2
        | some m =>
            rw [if_neg (by rw [h3]; exact fun e => Bool.noConfusion e)]
            simp only []
            rw [if_neg (by
              intro he
              exact h4 (List.isEmpty_iff.mp he))]

/-- Witness for C9: `rank00_d1.cif` matches metrics row `d1.cif`; the design
with a missing PAE file is skipped; the run still succeeds with the one
surviving design. -/
theorem original_name_and_skips_witness :
    originalName "rank00_d1.cif" = "d1.cif" ∧
    processOne fsSample ⟨"rank01_d2.cif", false⟩ = none ∧
    process_final_designs fsSample = .ok (rankDesigns (processDesigns fsSample)) :=
  ⟨by decide,
   (original_name_and_skips fsSample ⟨"rank01_d2.cif", false⟩ [] []).2.2.1 rfl,
   (original_name_and_skips fsSample ⟨"rank01_d2.cif", false⟩ [] []).2.2.2.2
      (by decide) (by decide) rfl (by decide)⟩

end CalcIpsae
